import Mathlib

/-!
Shallow embedding of the savvy-quizcraft exam core:

* `QuestionStore`  — src/src/utils/questionStore.ts (two-level topic/difficulty
  bucket map plus an id set; the constructor initialises a bucket for each of
  the ten topics, so the bucket map is modelled as a total function).
* `QuestionSelector` — the exam-generation algorithm (generateExam,
  getAvailableQuestions, calculateDistribution, selectQuestionsWithDiversity,
  getRandomElements).
* `QuestionGraphManager` — the undirected relationship graph with BFS
  neighbour expansion.

JavaScript's `Math.random()` is modelled by an explicit oracle
`rand : Nat → Nat` consumed at an explicit position counter: each draw at
position `pos` yields the index `rand pos % remaining`, matching
`Math.floor(Math.random() * copy.length)` for an arbitrary sequence of random
values.  All theorems about randomised code quantify over the oracle.
JavaScript reference equality on question objects is modelled by structural
equality; the two coincide on stores whose questions have pairwise distinct
ids (`===` can only differ from structural equality when two distinct objects
are structurally equal, which needs a repeated id).
-/

inductive Difficulty
  | Easy
  | Medium
  | Hard
deriving DecidableEq, Repr, Fintype

inductive Topic
  | Arrays
  | Strings
  | LinkedLists
  | Trees
  | Graphs
  | DynamicProgramming
  | Sorting
  | Searching
  | Recursion
  | GreedyAlgorithms
deriving DecidableEq, Repr, Fintype

/-- The `Question` interface of src/unnamed/part_004. -/
structure Question where
  id : String
  text : String
  difficulty : Difficulty
  topic : Topic
  options : Option (List String) := none
  answer : Option String := none
  explanation : Option String := none
deriving DecidableEq, Repr

/-- The fixed topic list used by the `QuestionStore` constructor; it covers
every value of the closed `Topic` enumeration, in declaration order (which is
also the `Object.keys` iteration order of the store). -/
def topicsList : List Topic :=
  [.Arrays, .Strings, .LinkedLists, .Trees, .Graphs,
   .DynamicProgramming, .Sorting, .Searching, .Recursion, .GreedyAlgorithms]

/-- The `['Easy', 'Medium', 'Hard']` iteration order used throughout. -/
def difficultyOrder : List Difficulty := [.Easy, .Medium, .Hard]

/-- `QuestionStore`: the outer topic map is total because the constructor
creates a bucket for all ten topics (and `Topic` is a closed enumeration, so
the `!this.store[question.topic]` branch of `addQuestion` can never create a
new key).  `idSet` keeps JavaScript `Set` insertion order. -/
structure QuestionStore where
  store : Topic → Difficulty → List Question
  idSet : List String

/-- The store produced by the `QuestionStore` constructor. -/
def QuestionStore.init : QuestionStore :=
  { store := fun _ _ => [], idSet := [] }

/-- `QuestionStore.addQuestion`: rejects a duplicate id, otherwise pushes the
question onto the `[topic][difficulty]` bucket and records the id. -/
def QuestionStore.addQuestion (s : QuestionStore) (q : Question) :
    Bool × QuestionStore :=
  if q.id ∈ s.idSet then (false, s)
  else
    (true,
      { store := fun t d =>
          if t = q.topic ∧ d = q.difficulty then s.store t d ++ [q]
          else s.store t d,
        idSet := s.idSet ++ [q.id] })

/-- `QuestionStore.getQuestions`: a copy of one bucket. -/
def QuestionStore.getQuestions (s : QuestionStore) (t : Topic)
    (d : Difficulty) : List Question :=
  s.store t d

/-- `QuestionStore.getQuestionsByTopic`: Easy, Medium then Hard bucket. -/
def QuestionStore.getQuestionsByTopic (s : QuestionStore) (t : Topic) :
    List Question :=
  s.store t .Easy ++ s.store t .Medium ++ s.store t .Hard

/-- `QuestionStore.getQuestionsByDifficulty`: across topics in key order. -/
def QuestionStore.getQuestionsByDifficulty (s : QuestionStore)
    (d : Difficulty) : List Question :=
  topicsList.flatMap fun t => s.store t d

/-- `QuestionStore.getAllQuestions`: topic-major, difficulty-minor. -/
def QuestionStore.getAllQuestions (s : QuestionStore) : List Question :=
  topicsList.flatMap fun t =>
    s.store t .Easy ++ s.store t .Medium ++ s.store t .Hard

/-- The counts record returned by `getQuestionCounts`. -/
structure StoreCounts where
  total : Nat
  byTopic : Topic → Nat
  byDifficulty : Difficulty → Nat

/-- `QuestionStore.getQuestionCounts`. -/
def QuestionStore.getQuestionCounts (s : QuestionStore) : StoreCounts :=
  { total :=
      (topicsList.map fun t =>
        (difficultyOrder.map fun d => (s.store t d).length).sum).sum,
    byTopic := fun t =>
      (difficultyOrder.map fun d => (s.store t d).length).sum,
    byDifficulty := fun d =>
      (topicsList.map fun t => (s.store t d).length).sum }

/-- An oracle standing for the stream of `Math.random()` draws. -/
abbrev RandOracle := Nat → Nat

/-- `getRandomElements(array, count)` (identical private helpers of
`QuestionSelector` and `QuestionGraphManager`): repeatedly remove a random
element of a shrinking copy.  Returns the selection and the next oracle
position. -/
def getRandomElements {α : Type*} (rand : RandOracle) :
    Nat → Nat → List α → List α × Nat
  | pos, 0, _ => ([], pos)
  | pos, _ + 1, [] => ([], pos)
  | pos, n + 1, x :: xs =>
    let copy := x :: xs
    let idx := rand pos % copy.length
    let chosen := copy.get ⟨idx, Nat.mod_lt _ (Nat.succ_pos xs.length)⟩
    let next := getRandomElements rand (pos + 1) n (copy.eraseIdx idx)
    (chosen :: next.1, next.2)

/-- A `Record<Difficulty, number>` of non-negative integers (weights, counts
and per-difficulty targets are all naturals in the source's reachable
states). -/
structure DifficultyRecord where
  Easy : Nat
  Medium : Nat
  Hard : Nat
deriving DecidableEq, Repr

def DifficultyRecord.get (r : DifficultyRecord) : Difficulty → Nat
  | .Easy => r.Easy
  | .Medium => r.Medium
  | .Hard => r.Hard

def DifficultyRecord.sum (r : DifficultyRecord) : Nat :=
  r.Easy + r.Medium + r.Hard

/-- `ExamConfig` (numQuestions, per-difficulty weights, topic filter). -/
structure ExamConfig where
  numQuestions : Nat
  difficulties : DifficultyRecord
  topics : List Topic

/-- `ExamResult`; `Date.now()` is passed in as the `now` argument. -/
structure ExamResult where
  questions : List Question
  config : ExamConfig
  timestamp : Nat

/-- `Math.round(num / den)` on the exact rational, i.e. round half up:
`⌊num/den + 1/2⌋ = ⌊(2*num + den) / (2*den)⌋`.  (The source computes the
ratio in binary floating point; the spec and claims describe the exact
rational rounding, which is what is modelled.) -/
def jsRound (num den : Nat) : Nat :=
  (2 * num + den) / (2 * den)

/-- The `availableCounts` record of `calculateDistribution`. -/
def availableCounts (availableQuestions : List Question) : DifficultyRecord :=
  { Easy := (availableQuestions.filter fun q => q.difficulty = .Easy).length,
    Medium := (availableQuestions.filter fun q => q.difficulty = .Medium).length,
    Hard := (availableQuestions.filter fun q => q.difficulty = .Hard).length }

/-- The `desired` record of `calculateDistribution`:
`Math.round((weight / totalWeight) * totalQuestions)` per difficulty. -/
def desiredDistribution (totalQuestions : Nat)
    (difficulties : DifficultyRecord) : DifficultyRecord :=
  { Easy := jsRound (difficulties.Easy * totalQuestions) difficulties.sum,
    Medium := jsRound (difficulties.Medium * totalQuestions) difficulties.sum,
    Hard := jsRound (difficulties.Hard * totalQuestions) difficulties.sum }

/-- The `distribution` record before the excess trim: each desired target
clamped down to availability. -/
def clampedDistribution (totalQuestions : Nat)
    (difficulties : DifficultyRecord)
    (availableQuestions : List Question) : DifficultyRecord :=
  let a := availableCounts availableQuestions
  let d := desiredDistribution totalQuestions difficulties
  { Easy := min d.Easy a.Easy,
    Medium := min d.Medium a.Medium,
    Hard := min d.Hard a.Hard }

/-- The trim loop of `calculateDistribution`: the excess is absorbed by Hard,
then Medium, then Easy, each reduction capped by the current target (the
loop `reduction = Math.min(distribution[difficulty], remainingExcess)` over
`['Hard', 'Medium', 'Easy']`, unrolled). -/
def trimExcess (distribution : DifficultyRecord) (excess : Nat) :
    DifficultyRecord :=
  let rH := min distribution.Hard excess
  let e1 := excess - rH
  let rM := min distribution.Medium e1
  let e2 := e1 - rM
  let rE := min distribution.Easy e2
  { Easy := distribution.Easy - rE,
    Medium := distribution.Medium - rM,
    Hard := distribution.Hard - rH }

/-- `QuestionSelector.calculateDistribution`. -/
def calculateDistribution (totalQuestions : Nat)
    (difficulties : DifficultyRecord)
    (availableQuestions : List Question) : DifficultyRecord :=
  let distribution := clampedDistribution totalQuestions difficulties
    availableQuestions
  let total := distribution.sum
  if total < totalQuestions then distribution
  else if total > totalQuestions then
    trimExcess distribution (total - totalQuestions)
  else distribution

/-- The mutable locals of the first (per-topic) pass of
`selectQuestionsWithDiversity`: the by-topic pools (spliced as questions are
taken), the selection so far, the undistributed remainder, the running
`remainingCount` (an integer in the source, so modelled as `Int`), and the
oracle position. -/
structure DivState where
  byTopic : Topic → List Question
  selected : List Question
  remainder : Nat
  remainingCount : Int
  pos : Nat

/-- One iteration of the per-topic loop of `selectQuestionsWithDiversity`. -/
def diversityStep (rand : RandOracle) (basePerTopic : Nat) (st : DivState)
    (topic : Topic) : DivState :=
  let topicQuestions := st.byTopic topic
  let tc0 := min basePerTopic topicQuestions.length
  let useRemainder := 0 < st.remainder ∧ tc0 < topicQuestions.length
  let topicCount := if useRemainder then tc0 + 1 else tc0
  let remainder' := if useRemainder then st.remainder - 1 else st.remainder
  let drawn := getRandomElements rand st.pos topicCount topicQuestions
  let selectedFromTopic := drawn.1
  { byTopic := fun t =>
      if t = topic then selectedFromTopic.foldl List.erase topicQuestions
      else st.byTopic t,
    selected := st.selected ++ selectedFromTopic,
    remainder := remainder',
    remainingCount := st.remainingCount - (topicCount : Int),
    pos := drawn.2 }

/-- The `questionsByTopic` map of `selectQuestionsWithDiversity`: a key per
requested topic (initialised empty), then each input question pushed onto its
topic's list when that key exists. -/
def questionsByTopicOf (questions : List Question) (topics : List Topic) :
    Topic → List Question :=
  fun t => if t ∈ topics then questions.filter (fun q => q.topic = t) else []

/-- The `topicsWithQuestions` list of `selectQuestionsWithDiversity`. -/
def topicsWithQuestionsOf (questions : List Question) (topics : List Topic) :
    List Topic :=
  topics.filter fun t => 0 < (questionsByTopicOf questions topics t).length

/-- `QuestionSelector.selectQuestionsWithDiversity`.  Note the early returns:
all questions when the pool is not larger than `count`, and the empty list
when no requested topic has an available question (the final fill-gap pass is
not reached in that case). -/
def selectQuestionsWithDiversity (rand : RandOracle) (pos : Nat)
    (questions : List Question) (count : Nat) (topics : List Topic) :
    List Question × Nat :=
  if questions.length ≤ count then (questions, pos)
  else
    let questionsByTopic := questionsByTopicOf questions topics
    let topicsWithQuestions := topicsWithQuestionsOf questions topics
    if topicsWithQuestions.length = 0 then ([], pos)
    else
      let basePerTopic := count / topicsWithQuestions.length
      let remainder := count % topicsWithQuestions.length
      let st0 : DivState :=
        { byTopic := questionsByTopic, selected := [], remainder := remainder,
          remainingCount := (count : Int), pos := pos }
      let st := topicsWithQuestions.foldl (diversityStep rand basePerTopic) st0
      if 0 < st.remainingCount then
        let remaining := questions.filter fun q => q ∉ st.selected
        let drawn := getRandomElements rand st.pos st.remainingCount.toNat
          remaining
        (st.selected ++ drawn.1, drawn.2)
      else (st.selected, st.pos)

/-- `QuestionSelector.getAvailableQuestions`. -/
def getAvailableQuestions (s : QuestionStore) (topics : List Topic) :
    List Question :=
  if topics.isEmpty then s.getAllQuestions
  else topics.flatMap fun t => s.getQuestionsByTopic t

/-- The body of the per-difficulty loop of `generateExam`, threading the
selection accumulated so far and the oracle position. -/
def examStep (rand : RandOracle) (distribution : DifficultyRecord)
    (availableQuestions : List Question) (topics : List Topic)
    (acc : List Question × Nat) (difficulty : Difficulty) :
    List Question × Nat :=
  let count := distribution.get difficulty
  if count = 0 then acc
  else
    let questionsOfDifficulty :=
      availableQuestions.filter fun q => q.difficulty = difficulty
    let toSelect := min count questionsOfDifficulty.length
    let drawn := selectQuestionsWithDiversity rand acc.2 questionsOfDifficulty
      toSelect topics
    (acc.1 ++ drawn.1, drawn.2)

/-- `QuestionSelector.generateExam`. -/
def generateExam (rand : RandOracle) (now : Nat) (s : QuestionStore)
    (config : ExamConfig) : ExamResult :=
  let availableQuestions := getAvailableQuestions s config.topics
  let distribution := calculateDistribution config.numQuestions
    config.difficulties availableQuestions
  let res := difficultyOrder.foldl
    (examStep rand distribution availableQuestions config.topics) ([], 0)
  { questions := res.1, config := config, timestamp := now }

/-- The ten `sampleQuestions` of src/src/utils/questionStore.ts. -/
def sampleQuestions : List Question :=
  [{ id := "1",
     text := "What is the time complexity of a binary search algorithm?",
     difficulty := .Easy, topic := .Searching,
     options := some ["O(n)", "O(log n)", "O(n log n)", "O(n²)"],
     answer := some "O(log n)",
     explanation := some "Binary search repeatedly divides the search space in half, resulting in logarithmic time complexity." },
   { id := "2",
     text := "Describe the differences between a linked list and an array.",
     difficulty := .Easy, topic := .Arrays,
     answer := some "Arrays have fixed size and contiguous memory, allow random access in O(1), but insertions can be O(n). Linked lists have dynamic size with non-contiguous memory, insertions are O(1) at known positions, but access is O(n)." },
   { id := "3",
     text := "Implement a function to detect a cycle in a linked list.",
     difficulty := .Medium, topic := .LinkedLists,
     answer := some "Use Floyd\'s Cycle-Finding Algorithm (tortoise and hare) with two pointers moving at different speeds." },
   { id := "4",
     text := "Explain the concept of dynamic programming and provide an example.",
     difficulty := .Medium, topic := .DynamicProgramming,
     answer := some "Dynamic programming breaks down complex problems into simpler subproblems, solving each subproblem once and storing results for future use. Examples include the Fibonacci sequence, knapsack problem, and longest common subsequence." },
   { id := "5",
     text := "Implement an algorithm to find the shortest path in a weighted graph.",
     difficulty := .Hard, topic := .Graphs,
     answer := some "Use Dijkstra\'s algorithm for graphs with non-negative weights, or Bellman-Ford for graphs that may contain negative weights." },
   { id := "6",
     text := "Compare and contrast the time complexity of different sorting algorithms.",
     difficulty := .Medium, topic := .Sorting,
     answer := some "Quick Sort: Average O(n log n), worst O(n²). Merge Sort: O(n log n) always. Bubble Sort: O(n²). Heap Sort: O(n log n). Insertion Sort: Average O(n²), best O(n)." },
   { id := "7",
     text := "Explain the difference between a tree and a graph data structure.",
     difficulty := .Easy, topic := .Trees,
     answer := some "A tree is a connected, acyclic graph with one path between any two vertices. A graph is a collection of nodes connected by edges that can contain cycles and multiple paths between nodes." },
   { id := "8",
     text := "Solve the N-Queens problem using backtracking.",
     difficulty := .Hard, topic := .Recursion,
     answer := some "Use recursive backtracking to place queens one by one in different columns, and check for conflicts in rows, columns, and diagonals before placement." },
   { id := "9",
     text := "What is the difference between a greedy algorithm and dynamic programming?",
     difficulty := .Medium, topic := .GreedyAlgorithms,
     answer := some "Greedy algorithms make locally optimal choices at each step to find a global optimum, while dynamic programming breaks problems into subproblems and builds up solutions by combining subproblem solutions. Greedy algorithms don\'t guarantee optimal solutions for all problems." },
   { id := "10",
     text := "Implement an algorithm to find all permutations of a string.",
     difficulty := .Hard, topic := .Strings,
     answer := some "Use recursive backtracking, swapping characters to generate all permutations. This can also be done iteratively using an algorithm like Heap\'s algorithm." }]

/-- The module-level singleton store after
`sampleQuestions.forEach(q => questionStore.addQuestion(q))`. -/
def seededStore : QuestionStore :=
  sampleQuestions.foldl (fun s q => (s.addQuestion q).2) QuestionStore.init

/-- The configuration of the spec's scenario:
`{numQuestions: 5, difficulties: {Easy:1, Medium:1, Hard:1}, topics: []}`. -/
def scenarioConfig : ExamConfig :=
  { numQuestions := 5,
    difficulties := { Easy := 1, Medium := 1, Hard := 1 },
    topics := [] }

/-! ### Lemmas about `getRandomElements` -/

theorem get_cons_eraseIdx_perm {α : Type*} [DecidableEq α] (l : List α)
    (i : Nat) (h : i < l.length) :
    (l.get ⟨i, h⟩ :: l.eraseIdx i).Perm l := by
  have hmem : l.get ⟨i, h⟩ ∈ l := List.get_mem l i h
  have h1 := List.perm_cons_erase hmem
  have h2 : (l.erase (l.get ⟨i, h⟩)).Perm (l.eraseIdx i) := by
    simpa [List.get_eq_getElem] using List.erase_getElem h
  exact ((h2.cons _).symm.trans h1.symm)

theorem getRandomElements_length {α : Type*} (rand : RandOracle) :
    ∀ (pos n : Nat) (l : List α),
      ((getRandomElements rand pos n l).1).length = min n l.length := by
  intro pos n
  induction n generalizing pos with
  | zero => intro l; simp [getRandomElements]
  | succ n ih =>
    intro l
    cases l with
    | nil => simp [getRandomElements]
    | cons x xs =>
      simp only [getRandomElements, List.length_cons]
      rw [ih]
      have hlt : rand pos % (xs.length + 1) < (x :: xs).length :=
        Nat.mod_lt _ (Nat.succ_pos xs.length)
      have := List.length_eraseIdx_add_one (l := x :: xs)
        (i := rand pos % (xs.length + 1)) (by simpa using hlt)
      simp only [List.length_cons] at this
      omega

theorem getRandomElements_subperm {α : Type*} [DecidableEq α]
    (rand : RandOracle) :
    ∀ (pos n : Nat) (l : List α),
      List.Subperm (getRandomElements rand pos n l).1 l := by
  intro pos n
  induction n generalizing pos with
  | zero => intro l; simp [getRandomElements]
  | succ n ih =>
    intro l
    cases l with
    | nil => simp [getRandomElements]
    | cons x xs =>
      simp only [getRandomElements]
      have hrec := ih (pos + 1)
        ((x :: xs).eraseIdx (rand pos % (x :: xs).length))
      have hcons :
          List.Subperm
            ((x :: xs).get ⟨rand pos % (x :: xs).length,
                Nat.mod_lt _ (Nat.succ_pos xs.length)⟩ ::
              (getRandomElements rand (pos + 1) n
                ((x :: xs).eraseIdx (rand pos % (x :: xs).length))).1)
            ((x :: xs).get ⟨rand pos % (x :: xs).length,
                Nat.mod_lt _ (Nat.succ_pos xs.length)⟩ ::
              (x :: xs).eraseIdx (rand pos % (x :: xs).length)) :=
        (List.subperm_cons _).2 hrec
      exact hcons.trans
        (get_cons_eraseIdx_perm (x :: xs) _ _).subperm

theorem getRandomElements_subset {α : Type*} [DecidableEq α]
    (rand : RandOracle) (pos n : Nat) (l : List α) :
    ∀ x ∈ (getRandomElements rand pos n l).1, x ∈ l :=
  fun _ hx => (getRandomElements_subperm rand pos n l).subset hx

/-! ### Lemmas about `selectQuestionsWithDiversity` -/

theorem diversityStep_selected_rc (rand : RandOracle) (b : Nat)
    (st : DivState) (t : Topic) :
    ((diversityStep rand b st t).selected.length : Int) +
        (diversityStep rand b st t).remainingCount ≤
      (st.selected.length : Int) + st.remainingCount := by
  simp only [diversityStep, List.length_append]
  rw [getRandomElements_length]
  split <;> push_cast <;> omega

theorem divFold_selected_rc (rand : RandOracle) (b : Nat) :
    ∀ (ts : List Topic) (st : DivState),
      (((ts.foldl (diversityStep rand b) st).selected.length : Int) +
        (ts.foldl (diversityStep rand b) st).remainingCount) ≤
      (st.selected.length : Int) + st.remainingCount := by
  intro ts
  induction ts with
  | nil => intro st; simp
  | cons t ts ih =>
    intro st
    calc _ ≤ ((diversityStep rand b st t).selected.length : Int) +
          (diversityStep rand b st t).remainingCount := ih _
      _ ≤ _ := diversityStep_selected_rc rand b st t

theorem diversityStep_rc_rem (rand : RandOracle) (b : Nat)
    (st : DivState) (t : Topic) :
    (st.remainingCount - (st.remainder : Int)) - b ≤
      (diversityStep rand b st t).remainingCount -
        ((diversityStep rand b st t).remainder : Int) := by
  simp only [diversityStep]
  split <;> rename_i h <;> push_cast <;>
    [skip; skip] <;> omega

theorem divFold_rc_rem (rand : RandOracle) (b : Nat) :
    ∀ (ts : List Topic) (st : DivState),
      (st.remainingCount - (st.remainder : Int)) - b * ts.length ≤
        (ts.foldl (diversityStep rand b) st).remainingCount -
          ((ts.foldl (diversityStep rand b) st).remainder : Int) := by
  intro ts
  induction ts with
  | nil => intro st; simp
  | cons t ts ih =>
    intro st
    have h1 := diversityStep_rc_rem rand b st t
    have h2 := ih (diversityStep rand b st t)
    simp only [List.foldl_cons, List.length_cons] at *
    push_cast at *
    have hb : (b : Int) * ((ts.length : Int) + 1) = b * ts.length + b := by
      ring
    omega

/-- The length bound of the diversity selection: at most `count` questions. -/
theorem selectQuestionsWithDiversity_length_le (rand : RandOracle) (pos : Nat)
    (questions : List Question) (count : Nat) (topics : List Topic) :
    ((selectQuestionsWithDiversity rand pos questions count topics).1).length ≤
      count := by
  simp only [selectQuestionsWithDiversity]
  split_ifs with h1 h2 h3
  · simpa using h1
  · simp
  · -- main branch, fill-gap pass taken
    set W := topicsWithQuestionsOf questions topics with hW
    set st0 : DivState :=
      { byTopic := questionsByTopicOf questions topics, selected := [],
        remainder := count % W.length,
        remainingCount := (count : Int), pos := pos } with hst0
    set st := W.foldl (diversityStep rand (count / W.length)) st0 with hst
    have h_sel := divFold_selected_rc rand (count / W.length) W st0
    have h_rc := divFold_rc_rem rand (count / W.length) W st0
    rw [← hst] at h_sel h_rc
    rw [← Nat.cast_mul] at h_rc
    have hdm : count / W.length * W.length + count % W.length = count :=
      Nat.div_add_mod' count W.length
    simp only [hst0, List.length_nil, Nat.cast_zero, zero_add] at h_sel h_rc
    simp only [List.length_append]
    rw [getRandomElements_length]
    have hmin := Nat.min_le_left st.remainingCount.toNat
      ((questions.filter fun q => q ∉ st.selected).length)
    omega
  · -- main branch, fill-gap pass skipped
    set W := topicsWithQuestionsOf questions topics with hW
    set st0 : DivState :=
      { byTopic := questionsByTopicOf questions topics, selected := [],
        remainder := count % W.length,
        remainingCount := (count : Int), pos := pos } with hst0
    set st := W.foldl (diversityStep rand (count / W.length)) st0 with hst
    have h_sel := divFold_selected_rc rand (count / W.length) W st0
    have h_rc := divFold_rc_rem rand (count / W.length) W st0
    rw [← hst] at h_sel h_rc
    rw [← Nat.cast_mul] at h_rc
    have hdm : count / W.length * W.length + count % W.length = count :=
      Nat.div_add_mod' count W.length
    simp only [hst0, List.length_nil, Nat.cast_zero, zero_add] at h_sel h_rc
    show st.selected.length ≤ count
    omega

theorem foldl_erase_subset {α : Type*} [DecidableEq α] :
    ∀ (sel l : List α), ∀ x ∈ sel.foldl List.erase l, x ∈ l := by
  intro sel
  induction sel with
  | nil => simp
  | cons a sel ih =>
    intro l x hx
    simp only [List.foldl_cons] at hx
    exact List.mem_of_mem_erase (ih (l.erase a) x hx)

/-- Invariant of the per-topic pass: every pool and the selection stay inside
the input question list. -/
def DivInv (questions : List Question) (st : DivState) : Prop :=
  (∀ t, ∀ x ∈ st.byTopic t, x ∈ questions) ∧ ∀ x ∈ st.selected, x ∈ questions

theorem diversityStep_inv (rand : RandOracle) (b : Nat)
    (questions : List Question) (st : DivState) (t : Topic)
    (h : DivInv questions st) :
    DivInv questions (diversityStep rand b st t) := by
  obtain ⟨hbt, hsel⟩ := h
  constructor
  · intro t' x hx
    simp only [diversityStep] at hx
    by_cases ht : t' = t
    · rw [if_pos ht] at hx
      exact hbt t x (foldl_erase_subset _ _ x hx)
    · rw [if_neg ht] at hx
      exact hbt t' x hx
  · intro x hx
    simp only [diversityStep, List.mem_append] at hx
    rcases hx with hx | hx
    · exact hsel x hx
    · exact hbt t x (getRandomElements_subset _ _ _ _ x hx)

theorem divFold_inv (rand : RandOracle) (b : Nat) (questions : List Question) :
    ∀ (ts : List Topic) (st : DivState), DivInv questions st →
      DivInv questions (ts.foldl (diversityStep rand b) st) := by
  intro ts
  induction ts with
  | nil => intro st h; simpa using h
  | cons t ts ih =>
    intro st h
    exact ih _ (diversityStep_inv rand b questions st t h)

/-- Everything the diversity selection returns comes from its input pool. -/
theorem selectQuestionsWithDiversity_subset (rand : RandOracle) (pos : Nat)
    (questions : List Question) (count : Nat) (topics : List Topic) :
    ∀ x ∈ (selectQuestionsWithDiversity rand pos questions count topics).1,
      x ∈ questions := by
  simp only [selectQuestionsWithDiversity]
  split_ifs with h1 h2 h3
  · simp
  · simp
  · set W := topicsWithQuestionsOf questions topics with hW
    set st0 : DivState :=
      { byTopic := questionsByTopicOf questions topics, selected := [],
        remainder := count % W.length,
        remainingCount := (count : Int), pos := pos } with hst0
    set st := W.foldl (diversityStep rand (count / W.length)) st0 with hst
    have hinv : DivInv questions st := by
      rw [hst]
      refine divFold_inv rand _ questions W st0 ⟨?_, by simp [hst0]⟩
      intro t x hx
      simp only [hst0, questionsByTopicOf] at hx
      split at hx
      · exact (List.mem_filter.1 hx).1
      · simp at hx
    intro x hx
    have hx' : x ∈ st.selected ∨
        x ∈ (getRandomElements rand st.pos st.remainingCount.toNat
          (questions.filter fun q => q ∉ st.selected)).1 := by
      simpa using hx
    rcases hx' with hx' | hx'
    · exact hinv.2 x hx'
    · have := getRandomElements_subset rand st.pos st.remainingCount.toNat
        (questions.filter fun q => q ∉ st.selected) x hx'
      exact (List.mem_filter.1 this).1
  · set W := topicsWithQuestionsOf questions topics with hW
    set st0 : DivState :=
      { byTopic := questionsByTopicOf questions topics, selected := [],
        remainder := count % W.length,
        remainingCount := (count : Int), pos := pos } with hst0
    set st := W.foldl (diversityStep rand (count / W.length)) st0 with hst
    have hinv : DivInv questions st := by
      rw [hst]
      refine divFold_inv rand _ questions W st0 ⟨?_, by simp [hst0]⟩
      intro t x hx
      simp only [hst0, questionsByTopicOf] at hx
      split at hx
      · exact (List.mem_filter.1 hx).1
      · simp at hx
    intro x hx
    exact hinv.2 x (by simpa using hx)

/-- When no requested topic has an available question (in particular when the
request's topic list is empty) and the pool is strictly larger than `count`,
the per-topic pass has zero eligible topics and the function returns the
empty selection without reaching the fill-gap pass. -/
theorem selectQuestionsWithDiversity_no_eligible (rand : RandOracle)
    (pos : Nat) (questions : List Question) (count : Nat)
    (topics : List Topic) (hcount : count < questions.length)
    (hnone : topicsWithQuestionsOf questions topics = []) :
    selectQuestionsWithDiversity rand pos questions count topics = ([], pos) := by
  have h1 : ¬ questions.length ≤ count := by omega
  simp [selectQuestionsWithDiversity, h1, hnone]

theorem topicsWithQuestionsOf_nil (questions : List Question) :
    topicsWithQuestionsOf questions [] = [] := rfl

/-! ### Lemmas about `calculateDistribution` -/

theorem trimExcess_sum (d : DifficultyRecord) (excess : Nat)
    (h : excess ≤ d.sum) : (trimExcess d excess).sum = d.sum - excess := by
  simp only [trimExcess, DifficultyRecord.sum] at *
  omega

theorem calculateDistribution_sum_le (n : Nat) (w : DifficultyRecord)
    (a : List Question) : (calculateDistribution n w a).sum ≤ n := by
  simp only [calculateDistribution]
  split_ifs with h1 h2
  · omega
  · rw [trimExcess_sum _ _ (by omega)]
    omega
  · omega

/-! ### The exam-size bound -/

theorem examFold_length_le (rand : RandOracle) (dist : DifficultyRecord)
    (avail : List Question) (topics : List Topic) :
    ∀ (ds : List Difficulty) (acc : List Question × Nat),
      ((ds.foldl (examStep rand dist avail topics) acc).1).length ≤
        acc.1.length + (ds.map dist.get).sum := by
  intro ds
  induction ds with
  | nil => intro acc; simp
  | cons d ds ih =>
    intro acc
    have h2 := ih (examStep rand dist avail topics acc d)
    have hstep : (examStep rand dist avail topics acc d).1.length ≤
        acc.1.length + dist.get d := by
      simp only [examStep]
      split_ifs with hc
      · omega
      · simp only [List.length_append]
        have hsel := selectQuestionsWithDiversity_length_le rand acc.2
          (avail.filter fun q => q.difficulty = d)
          (min (dist.get d) (avail.filter fun q => q.difficulty = d).length)
          topics
        have hmin := Nat.min_le_left (dist.get d)
          (avail.filter fun q => q.difficulty = d).length
        omega
    simp only [List.foldl_cons, List.map_cons, List.sum_cons]
    omega

/-- C2: for every configuration with a positive question count and a positive
total difficulty weight, `generateExam` returns at most
`config.numQuestions` questions, whatever the repository state and the
random draws. -/
theorem generateExam_size_bound (rand : RandOracle) (now : Nat)
    (s : QuestionStore) (config : ExamConfig)
    (hn : 0 < config.numQuestions)
    (hw : 0 < config.difficulties.sum) :
    ((generateExam rand now s config).questions).length ≤
      config.numQuestions := by
  simp only [generateExam]
  have h := examFold_length_le rand
    (calculateDistribution config.numQuestions config.difficulties
      (getAvailableQuestions s config.topics))
    (getAvailableQuestions s config.topics) config.topics
    difficultyOrder ([], 0)
  have hsum := calculateDistribution_sum_le config.numQuestions
    config.difficulties (getAvailableQuestions s config.topics)
  simp only [difficultyOrder, List.map_cons, List.map_nil, List.sum_cons,
    List.sum_nil, DifficultyRecord.get, DifficultyRecord.sum,
    List.length_nil] at h hsum ⊢
  omega

/-- Witness for C2 at a concrete configuration and store. -/
theorem generateExam_size_bound_witness :
    0 < (1 : Nat) ∧
      0 < (DifficultyRecord.mk 1 0 0).sum ∧
      ((generateExam (fun _ => 0) 0 QuestionStore.init
        (ExamConfig.mk 1 (DifficultyRecord.mk 1 0 0) [])).questions).length ≤ 1 :=
  ⟨by decide, by decide,
    generateExam_size_bound (fun _ => 0) 0 QuestionStore.init
      (ExamConfig.mk 1 (DifficultyRecord.mk 1 0 0) []) (by decide) (by decide)⟩

/-- C3: when the clamped per-difficulty targets sum to more than
`numQuestions`, `calculateDistribution` trims the excess greedily from Hard,
then Medium, then Easy: the per-difficulty reductions never exceed the
targets (no target is driven below zero), they absorb exactly the excess,
Medium is only reduced once Hard is exhausted, Easy only once Medium is
exhausted, and the trimmed targets sum to exactly `numQuestions`. -/
theorem calculateDistribution_trim_order (n : Nat) (w : DifficultyRecord)
    (a : List Question)
    (h : n < (clampedDistribution n w a).sum) :
    ∃ tE tM tH : Nat,
      calculateDistribution n w a =
        { Easy := (clampedDistribution n w a).Easy - tE,
          Medium := (clampedDistribution n w a).Medium - tM,
          Hard := (clampedDistribution n w a).Hard - tH } ∧
      tE ≤ (clampedDistribution n w a).Easy ∧
      tM ≤ (clampedDistribution n w a).Medium ∧
      tH ≤ (clampedDistribution n w a).Hard ∧
      tE + tM + tH = (clampedDistribution n w a).sum - n ∧
      (0 < tM → tH = (clampedDistribution n w a).Hard) ∧
      (0 < tE → tM = (clampedDistribution n w a).Medium) ∧
      (calculateDistribution n w a).sum = n := by
  simp only [calculateDistribution]
  set c := clampedDistribution n w a with hc
  have hne : ¬ c.sum < n := by omega
  rw [if_neg hne, if_pos (by omega : c.sum > n)]
  have hexcess : c.sum - n ≤ c.sum := by omega
  refine ⟨min c.Easy (c.sum - n - min c.Hard (c.sum - n) -
      min c.Medium (c.sum - n - min c.Hard (c.sum - n))),
    min c.Medium (c.sum - n - min c.Hard (c.sum - n)),
    min c.Hard (c.sum - n), rfl,
    Nat.min_le_left _ _, Nat.min_le_left _ _, Nat.min_le_left _ _,
    ?_, ?_, ?_, ?_⟩
  · simp only [DifficultyRecord.sum] at h ⊢
    omega
  · intro hM
    simp only [DifficultyRecord.sum] at h hM ⊢
    omega
  · intro hE
    simp only [DifficultyRecord.sum] at h hE ⊢
    omega
  · rw [trimExcess_sum c (c.sum - n) hexcess]
    omega

/-- Witness for C3 at the spec's own scenario (clamped targets 2,2,2 for
`numQuestions = 5`). -/
theorem calculateDistribution_trim_order_witness :
    5 < (clampedDistribution 5 (DifficultyRecord.mk 1 1 1)
        sampleQuestions).sum ∧
      (∃ tE tM tH : Nat,
        calculateDistribution 5 (DifficultyRecord.mk 1 1 1) sampleQuestions =
          { Easy := (clampedDistribution 5 (DifficultyRecord.mk 1 1 1)
              sampleQuestions).Easy - tE,
            Medium := (clampedDistribution 5 (DifficultyRecord.mk 1 1 1)
              sampleQuestions).Medium - tM,
            Hard := (clampedDistribution 5 (DifficultyRecord.mk 1 1 1)
              sampleQuestions).Hard - tH } ∧
        tE ≤ (clampedDistribution 5 (DifficultyRecord.mk 1 1 1)
          sampleQuestions).Easy ∧
        tM ≤ (clampedDistribution 5 (DifficultyRecord.mk 1 1 1)
          sampleQuestions).Medium ∧
        tH ≤ (clampedDistribution 5 (DifficultyRecord.mk 1 1 1)
          sampleQuestions).Hard ∧
        tE + tM + tH = (clampedDistribution 5 (DifficultyRecord.mk 1 1 1)
          sampleQuestions).sum - 5 ∧
        (0 < tM → tH = (clampedDistribution 5 (DifficultyRecord.mk 1 1 1)
          sampleQuestions).Hard) ∧
        (0 < tE → tM = (clampedDistribution 5 (DifficultyRecord.mk 1 1 1)
          sampleQuestions).Medium) ∧
        (calculateDistribution 5 (DifficultyRecord.mk 1 1 1)
          sampleQuestions).sum = 5) :=
  ⟨by decide,
    calculateDistribution_trim_order 5 (DifficultyRecord.mk 1 1 1)
      sampleQuestions (by decide)⟩

/-- When the request carries no topics and the pool of some difficulty is
strictly larger than its target, the per-difficulty step of `generateExam`
contributes nothing (the diversity selection returns the empty list). -/
theorem examStep_no_topics (rand : RandOracle) (dist : DifficultyRecord)
    (avail : List Question) (acc : List Question × Nat) (d : Difficulty)
    (hlt : dist.get d < (avail.filter fun q => q.difficulty = d).length) :
    examStep rand dist avail [] acc d = acc := by
  simp only [examStep]
  split_ifs with hc
  · rfl
  · have hmin : min (dist.get d) (avail.filter fun q => q.difficulty = d).length
        = dist.get d := Nat.min_eq_left (le_of_lt hlt)
    rw [hmin, selectQuestionsWithDiversity_no_eligible rand acc.2 _ _ [] hlt
      (topicsWithQuestionsOf_nil _)]
    simp

/-- C1 (counterexample): on the store seeded with the ten sample questions,
the scenario configuration does not produce five questions — whatever the
random draws would have been, the run with the constant-zero oracle returns
a different count. -/
theorem scenario_exam_counterexample :
    ((generateExam (fun _ => 0) 0 seededStore scenarioConfig).questions).length
      ≠ 5 := by
  decide

/-- C1 (amended): on the store seeded with the ten sample questions, the
scenario configuration `{numQuestions: 5, difficulties: {Easy:1, Medium:1,
Hard:1}, topics: []}` returns an empty question list, for every sequence of
random draws: each per-difficulty pool (3 Easy, 4 Medium, 3 Hard) is strictly
larger than its target (2, 2, 1), and with an empty topic list the diversity
selection has zero eligible topics and returns nothing. -/
theorem scenario_exam_returns_empty (rand : RandOracle) (now : Nat) :
    (generateExam rand now seededStore scenarioConfig).questions = [] := by
  have h : ∀ (acc : List Question × Nat) (d : Difficulty),
      examStep rand
        (calculateDistribution scenarioConfig.numQuestions
          scenarioConfig.difficulties
          (getAvailableQuestions seededStore scenarioConfig.topics))
        (getAvailableQuestions seededStore scenarioConfig.topics)
        scenarioConfig.topics acc d = acc := by
    intro acc d
    show examStep rand _ _ [] acc d = acc
    apply examStep_no_topics
    cases d <;> decide
  simp only [generateExam, difficultyOrder, List.foldl_cons, List.foldl_nil, h]

/-- C5 (counterexample): with an empty topic list and a pool of two sample
questions, requesting one question returns zero questions, not one — the
fill-gap pass is never reached. -/
theorem selectDiversity_fillgap_counterexample :
    ((selectQuestionsWithDiversity (fun _ => 0) 0 (sampleQuestions.take 2) 1
      []).1).length ≠ 1 := by
  decide

/-- C5 (amended): for every call to the diversity selection with an empty
topics list and strictly more available questions than the requested count,
the per-topic pass has zero eligible topics and the function returns the
empty selection (and leaves the oracle untouched) without reaching the
fill-gap sampling step. -/
theorem selectDiversity_empty_topics_empty (rand : RandOracle) (pos : Nat)
    (questions : List Question) (count : Nat)
    (hcount : count < questions.length) :
    selectQuestionsWithDiversity rand pos questions count [] = ([], pos) :=
  selectQuestionsWithDiversity_no_eligible rand pos questions count []
    hcount (topicsWithQuestionsOf_nil questions)

/-- Witness for the amended C5 on a concrete two-question pool. -/
theorem selectDiversity_empty_topics_empty_witness :
    1 < (sampleQuestions.take 2).length ∧
      selectQuestionsWithDiversity (fun _ => 0) 0 (sampleQuestions.take 2) 1 []
        = ([], 0) :=
  ⟨by decide,
    selectDiversity_empty_topics_empty (fun _ => 0) 0 (sampleQuestions.take 2)
      1 (by decide)⟩

/-- C6: whenever the available questions strictly outnumber the requested
count and no topic of the supplied list has an available question (in
particular when the list is empty), the diversity selection returns the
empty sequence. -/
theorem selectDiversity_zero_eligible_empty (rand : RandOracle) (pos : Nat)
    (questions : List Question) (count : Nat) (topics : List Topic)
    (hcount : count < questions.length)
    (hno : ∀ t ∈ topics, questions.filter (fun q => q.topic = t) = []) :
    (selectQuestionsWithDiversity rand pos questions count topics).1 = [] := by
  have hnone : topicsWithQuestionsOf questions topics = [] := by
    simp only [topicsWithQuestionsOf, questionsByTopicOf]
    refine List.filter_eq_nil_iff.mpr ?_
    intro t ht
    simp [if_pos ht, hno t ht]
  rw [selectQuestionsWithDiversity_no_eligible rand pos questions count topics
    hcount hnone]

/-- Witness for C6: two Arrays/Searching questions, requesting one question
of topic Trees (no available question has that topic). -/
theorem selectDiversity_zero_eligible_empty_witness :
    1 < (sampleQuestions.take 2).length ∧
      (∀ t ∈ [Topic.Trees],
        (sampleQuestions.take 2).filter (fun q => q.topic = t) = []) ∧
      (selectQuestionsWithDiversity (fun _ => 0) 0 (sampleQuestions.take 2) 1
        [Topic.Trees]).1 = [] :=
  ⟨by decide, by decide,
    selectDiversity_zero_eligible_empty (fun _ => 0) 0 (sampleQuestions.take 2)
      1 [Topic.Trees] (by decide) (by decide)⟩

/-- Bucket coherence: every stored question sits in the bucket of its own
topic and difficulty.  The constructor establishes it and `addQuestion`
preserves it, so every store reachable through the class API satisfies it. -/
def QuestionStore.WellFormed (s : QuestionStore) : Prop :=
  ∀ t d, ∀ q ∈ s.store t d, q.topic = t ∧ q.difficulty = d

instance QuestionStore.decidableWellFormed (s : QuestionStore) :
    Decidable s.WellFormed := by
  unfold QuestionStore.WellFormed
  infer_instance

theorem QuestionStore.init_wellFormed : QuestionStore.init.WellFormed := by
  intro t d q hq
  simp [QuestionStore.init] at hq

theorem QuestionStore.addQuestion_wellFormed (s : QuestionStore)
    (q : Question) (h : s.WellFormed) : ((s.addQuestion q).2).WellFormed := by
  intro t d p hp
  simp only [QuestionStore.addQuestion] at hp
  split at hp
  · exact h t d p hp
  · have hp' : p ∈ (if t = q.topic ∧ d = q.difficulty
        then s.store t d ++ [q] else s.store t d) := hp
    split at hp'
    · rename_i hc
      rcases List.mem_append.1 hp' with hq | hq
      · exact h t d p hq
      · have : p = q := by simpa using hq
        subst this
        exact ⟨hc.1.symm, hc.2.symm⟩
    · exact h t d p hp'

theorem getAvailableQuestions_topic_mem (s : QuestionStore)
    (topics : List Topic) (hwf : s.WellFormed) (hne : topics ≠ []) :
    ∀ q ∈ getAvailableQuestions s topics, q.topic ∈ topics := by
  intro q hq
  simp only [getAvailableQuestions] at hq
  rw [if_neg (by simpa using hne)] at hq
  rcases List.mem_flatMap.1 hq with ⟨t, ht, hq⟩
  simp only [QuestionStore.getQuestionsByTopic] at hq
  rcases List.mem_append.1 hq with hq | hq
  · rcases List.mem_append.1 hq with hq | hq
    · exact (hwf t .Easy q hq).1 ▸ ht
    · exact (hwf t .Medium q hq).1 ▸ ht
  · exact (hwf t .Hard q hq).1 ▸ ht

theorem examFold_mem (rand : RandOracle) (dist : DifficultyRecord)
    (avail : List Question) (topics : List Topic) :
    ∀ (ds : List Difficulty) (acc : List Question × Nat),
      ∀ x ∈ (ds.foldl (examStep rand dist avail topics) acc).1,
        x ∈ acc.1 ∨ x ∈ avail := by
  intro ds
  induction ds with
  | nil => intro acc x hx; exact Or.inl hx
  | cons d ds ih =>
    intro acc x hx
    simp only [List.foldl_cons] at hx
    rcases ih _ x hx with hx' | hx'
    · simp only [examStep] at hx'
      split at hx'
      · exact Or.inl hx'
      · have hx'' : x ∈ acc.1 ∨
            x ∈ (selectQuestionsWithDiversity rand acc.2
              (avail.filter fun q => q.difficulty = d)
              (min (dist.get d) (avail.filter fun q => q.difficulty = d).length)
              topics).1 := by
          simpa using hx'
        rcases hx'' with hx'' | hx''
        · exact Or.inl hx''
        · have := selectQuestionsWithDiversity_subset rand acc.2
            (avail.filter fun q => q.difficulty = d)
            (min (dist.get d) (avail.filter fun q => q.difficulty = d).length)
            topics x hx''
          exact Or.inr (List.mem_filter.1 this).1
    · exact Or.inr hx'

/-- C4: for every well-formed repository state (all reachable states are) and
every configuration with a non-empty topic list, every question of the
generated exam has its topic in the configured list, whatever the random
draws. -/
theorem generateExam_topic_filter (rand : RandOracle) (now : Nat)
    (s : QuestionStore) (config : ExamConfig) (hwf : s.WellFormed)
    (hne : config.topics ≠ []) :
    ∀ q ∈ (generateExam rand now s config).questions,
      q.topic ∈ config.topics := by
  intro q hq
  simp only [generateExam] at hq
  rcases examFold_mem rand
    (calculateDistribution config.numQuestions config.difficulties
      (getAvailableQuestions s config.topics))
    (getAvailableQuestions s config.topics) config.topics
    difficultyOrder ([], 0) q hq with h | h
  · simp at h
  · exact getAvailableQuestions_topic_mem s config.topics hwf hne q h

/-- Witness for C4 on the seeded sample store with the topic filter
`[Searching]`. -/
theorem generateExam_topic_filter_witness :
    seededStore.WellFormed ∧
      ([Topic.Searching] : List Topic) ≠ [] ∧
      ∀ q ∈ (generateExam (fun _ => 0) 0 seededStore
        (ExamConfig.mk 1 (DifficultyRecord.mk 1 0 0)
          [Topic.Searching])).questions,
        q.topic ∈ [Topic.Searching] :=
  ⟨by decide, by decide,
    generateExam_topic_filter (fun _ => 0) 0 seededStore
      (ExamConfig.mk 1 (DifficultyRecord.mk 1 0 0) [Topic.Searching])
      (by decide) (by decide)⟩

/-! ### Identity uniqueness of the store (claim C7) -/

theorem mem_topicsList (t : Topic) : t ∈ topicsList := by
  cases t <;> decide

theorem topicsList_nodup : topicsList.Nodup := by decide

theorem flatMap_update_perm {α β : Type*} (l : List α) (f g : α → List β)
    (t0 : α) (x : β) (hnd : l.Nodup) (ht : t0 ∈ l)
    (heq : ∀ t ∈ l, t ≠ t0 → g t = f t)
    (hup : (g t0).Perm (x :: f t0)) :
    (l.flatMap g).Perm (x :: l.flatMap f) := by
  induction l with
  | nil => cases ht
  | cons a l ih =>
    simp only [List.flatMap_cons]
    rcases List.mem_cons.1 ht with rfl | ht'
    · have hg : l.flatMap g = l.flatMap f := by
        apply List.flatMap_congr
        intro t htl
        exact heq t (List.mem_cons_of_mem _ htl)
          (fun hc => (List.nodup_cons.1 hnd).1 (hc ▸ htl))
      rw [hg]
      exact hup.append_right _
    · have ha : a ≠ t0 := fun hc => (List.nodup_cons.1 hnd).1 (hc ▸ ht')
      rw [heq a (List.mem_cons_self a l) ha]
      have hperm := ih (List.nodup_cons.1 hnd).2 ht'
        (fun t htl hne => heq t (List.mem_cons_of_mem _ htl) hne)
      exact (hperm.append_left (f a)).trans
        (@List.perm_middle _ x (f a) (l.flatMap f))

/-- A successful `addQuestion` changes the full listing by exactly the new
question (up to position). -/
theorem addQuestion_getAll_perm (s : QuestionStore) (q : Question)
    (hnew : q.id ∉ s.idSet) :
    (((s.addQuestion q).2).getAllQuestions).Perm (q :: s.getAllQuestions) := by
  simp only [QuestionStore.addQuestion, if_neg hnew]
  simp only [QuestionStore.getAllQuestions]
  apply flatMap_update_perm topicsList _ _ q.topic q topicsList_nodup
    (mem_topicsList q.topic)
  · intro t _ hne
    simp [hne]
  · rcases hdiff : q.difficulty with _ | _ | _ <;> simp only [hdiff] <;> simp
    · exact ((@List.perm_middle _ q (s.store q.topic .Medium)
          (s.store q.topic .Hard)).append_left
            (s.store q.topic .Easy)).trans
        (@List.perm_middle _ q (s.store q.topic .Easy)
          (s.store q.topic .Medium ++ s.store q.topic .Hard))
    · exact (((List.perm_append_singleton q
          (s.store q.topic .Hard)).append_left
            (s.store q.topic .Medium)).append_left
            (s.store q.topic .Easy)).trans
        (((@List.perm_middle _ q (s.store q.topic .Medium)
          (s.store q.topic .Hard)).append_left
            (s.store q.topic .Easy)).trans
          (@List.perm_middle _ q (s.store q.topic .Easy)
            (s.store q.topic .Medium ++ s.store q.topic .Hard)))

/-- A store built by a sequence of `addQuestion` calls on a fresh store. -/
def buildStore (qs : List Question) : QuestionStore :=
  qs.foldl (fun s q => (s.addQuestion q).2) QuestionStore.init

/-- The identity invariant: the stored ids are duplicate-free and the id set
tracks exactly the ids of the stored questions. -/
def StoreIdInv (s : QuestionStore) : Prop :=
  ((s.getAllQuestions.map Question.id).Nodup) ∧
    ∀ i, i ∈ s.idSet ↔ i ∈ s.getAllQuestions.map Question.id

theorem init_storeIdInv : StoreIdInv QuestionStore.init := by
  have h0 : QuestionStore.init.getAllQuestions = [] := rfl
  constructor
  · rw [h0]; simp
  · intro i
    rw [h0]
    simp [QuestionStore.init]

theorem addQuestion_storeIdInv (s : QuestionStore) (q : Question)
    (h : StoreIdInv s) : StoreIdInv ((s.addQuestion q).2) := by
  by_cases hmem : q.id ∈ s.idSet
  · have heq : s.addQuestion q = (false, s) := by
      simp [QuestionStore.addQuestion, hmem]
    rw [heq]
    exact h
  · have hperm := addQuestion_getAll_perm s q hmem
    have hids : ((((s.addQuestion q).2).getAllQuestions).map Question.id).Perm
        (q.id :: s.getAllQuestions.map Question.id) := by
      simpa using hperm.map Question.id
    have hidset : ((s.addQuestion q).2).idSet = s.idSet ++ [q.id] := by
      simp [QuestionStore.addQuestion, hmem]
    constructor
    · rw [hids.nodup_iff]
      refine List.nodup_cons.2 ⟨fun hc => hmem ((h.2 q.id).2 hc), h.1⟩
    · intro i
      rw [hidset, hids.mem_iff]
      simp only [List.mem_append, List.mem_cons, List.mem_singleton, h.2 i]
      tauto

theorem buildStore_storeIdInv (qs : List Question) :
    StoreIdInv (buildStore qs) := by
  suffices h : ∀ (l : List Question) (s : QuestionStore), StoreIdInv s →
      StoreIdInv (l.foldl (fun s q => (s.addQuestion q).2) s) from
    h qs QuestionStore.init init_storeIdInv
  intro l
  induction l with
  | nil => intro s h; exact h
  | cons a l ih =>
    intro s h
    exact ih _ (addQuestion_storeIdInv s a h)

/-- C7: after any sequence of `addQuestion` calls on a fresh store, no two
stored questions share an id; and an `addQuestion` call whose question id is
already stored returns false and leaves the store — and in particular
`getQuestionCounts` — unchanged. -/
theorem questionStore_unique_ids (qs : List Question) (q : Question)
    (hdup : q.id ∈ (buildStore qs).getAllQuestions.map Question.id) :
    ((buildStore qs).getAllQuestions.map Question.id).Nodup ∧
      (buildStore qs).addQuestion q = (false, buildStore qs) ∧
      ((buildStore qs).addQuestion q).2.getQuestionCounts =
        (buildStore qs).getQuestionCounts := by
  have hinv := buildStore_storeIdInv qs
  have hid : q.id ∈ (buildStore qs).idSet := (hinv.2 q.id).2 hdup
  have hadd : (buildStore qs).addQuestion q = (false, buildStore qs) := by
    simp [QuestionStore.addQuestion, hid]
  exact ⟨hinv.1, hadd, by rw [hadd]⟩

/-- Witness for C7: re-adding a question whose id "1" is already stored (with
different content) on the sample-seeded store. -/
theorem questionStore_unique_ids_witness :
    (Question.mk "1" "copy" .Hard .Trees none none none).id ∈
        (buildStore sampleQuestions).getAllQuestions.map Question.id ∧
      (((buildStore sampleQuestions).getAllQuestions.map Question.id).Nodup ∧
        (buildStore sampleQuestions).addQuestion
            (Question.mk "1" "copy" .Hard .Trees none none none) =
          (false, buildStore sampleQuestions) ∧
        ((buildStore sampleQuestions).addQuestion
            (Question.mk "1" "copy" .Hard .Trees none none none)).2.getQuestionCounts =
          (buildStore sampleQuestions).getQuestionCounts) :=
  ⟨by decide,
    questionStore_unique_ids sampleQuestions
      (Question.mk "1" "copy" .Hard .Trees none none none) (by decide)⟩

/-! ### The relationship graph (src/unnamed/part_000) -/

/-- The `QuestionGraph` record: both `Map`s are modelled as
insertion-ordered association lists. -/
structure QuestionGraph where
  nodes : List (String × Question)
  edges : List (String × List String)

/-- The graph produced by the `QuestionGraphManager` constructor. -/
def QuestionGraph.empty : QuestionGraph :=
  { nodes := [], edges := [] }

/-- JavaScript `Map.set`: update the entry in place, or append a new one. -/
def setAssoc {α : Type*} : List (String × α) → String → α → List (String × α)
  | [], k, v => [(k, v)]
  | (k', v') :: rest, k, v =>
    if k' = k then (k, v) :: rest else (k', v') :: setAssoc rest k v

/-- `map.get(id) || []` on a raw edge map. -/
def nbr (e : List (String × List String)) (a : String) : List String :=
  (List.lookup a e).getD []

/-- `this.graph.edges.get(id) || []`. -/
def QuestionGraph.neighborsOf (g : QuestionGraph) (id : String) :
    List String :=
  nbr g.edges id

def QuestionGraph.nodeIds (g : QuestionGraph) : List String :=
  g.nodes.map Prod.fst

/-- One iteration of the edge-creation loop of
`findAndCreateRelationships`: add the edge in both directions, skipping a
direction whose adjacency list already holds the other endpoint. -/
def addEdgePair (e : List (String × List String)) (qid relatedId : String) :
    List (String × List String) :=
  let currentEdges := nbr e qid
  let e1 := if relatedId ∈ currentEdges then e
    else setAssoc e qid (currentEdges ++ [relatedId])
  let relatedEdges := nbr e1 relatedId
  if qid ∈ relatedEdges then e1
  else setAssoc e1 relatedId (relatedEdges ++ [qid])

/-- `QuestionGraphManager.findAndCreateRelationships`: collect the other
nodes of the same topic, sample up to three of them, and connect the new
question to each symmetrically. -/
def findAndCreateRelationships (rand : RandOracle) (pos : Nat)
    (g : QuestionGraph) (question : Question) : QuestionGraph × Nat :=
  let sameTopicQuestions := (g.nodes.filter fun p =>
    p.1 ≠ question.id ∧ p.2.topic = question.topic).map Prod.fst
  let relatedQuestionsCount := min 3 sameTopicQuestions.length
  let drawn := getRandomElements rand pos relatedQuestionsCount
    sameTopicQuestions
  ({ nodes := g.nodes,
     edges := drawn.1.foldl (fun e relatedId =>
       addEdgePair e question.id relatedId) g.edges },
   drawn.2)

/-- `QuestionGraphManager.addQuestion`. -/
def QuestionGraph.addQuestion (rand : RandOracle) (pos : Nat)
    (g : QuestionGraph) (question : Question) :
    Bool × QuestionGraph × Nat :=
  if (List.lookup question.id g.nodes).isSome then (false, g, pos)
  else
    let g1 : QuestionGraph :=
      { nodes := setAssoc g.nodes question.id question,
        edges := setAssoc g.edges question.id [] }
    let r := findAndCreateRelationships rand pos g1 question
    (true, r.1, r.2)

/-- `QuestionGraphManager.removeQuestion`. -/
def QuestionGraph.removeQuestion (g : QuestionGraph) (id : String) :
    Bool × QuestionGraph :=
  if (List.lookup id g.nodes).isNone then (false, g)
  else
    (true,
      { nodes := g.nodes.filter fun p => p.1 ≠ id,
        edges := (g.edges.filter fun p => p.1 ≠ id).map fun p =>
          (p.1, p.2.filter fun c => c ≠ id) })

/-- Every id occurring in some adjacency list: whatever the BFS can ever
enqueue comes from this list. -/
def QuestionGraph.idUniverse (g : QuestionGraph) : List String :=
  g.edges.flatMap fun p => p.2

/-- The inner `for (neighborId of neighbors)` loop of the BFS: mark each
unvisited neighbour visited and collect it, in order. -/
def enqueueNew (visited newIds : List String) :
    List String → List String × List String
  | [] => (visited, newIds)
  | n :: rest =>
    if n ∈ visited then enqueueNew visited newIds rest
    else enqueueNew (visited ++ [n]) (newIds ++ [n]) rest

/-- The BFS loop of `getRelatedQuestions`, with explicit fuel bounding the
number of dequeue steps.  Every enqueued entry carries an id fresh to
`visited` drawn from some adjacency list, so a run started on one entry
dequeues at most `1 + g.idUniverse.length` entries; `getRelatedQuestions`
passes fuel `g.idUniverse.length + 1`, which therefore never runs out. -/
def bfsLoop (g : QuestionGraph) (maxDepth : Nat) :
    Nat → List (String × Nat) → List String → List Question → List Question
  | _, [], _, result => result
  | 0, _ :: _, _, result => result
  | fuel + 1, (id, depth) :: rest, visited, result =>
    let result' := if 0 < depth then
        match List.lookup id g.nodes with
        | some q => result ++ [q]
        | none => result
      else result
    if maxDepth ≤ depth then bfsLoop g maxDepth fuel rest visited result'
    else
      let step := enqueueNew visited [] (g.neighborsOf id)
      bfsLoop g maxDepth fuel
        (rest ++ step.2.map fun n => (n, depth + 1)) step.1 result'

/-- `QuestionGraphManager.getRelatedQuestions` (BFS with depth tracking,
excluding the start node; the source's default `maxDepth` is 2). -/
def QuestionGraph.getRelatedQuestions (g : QuestionGraph)
    (questionId : String) (maxDepth : Nat) : List Question :=
  if (List.lookup questionId g.nodes).isNone then []
  else
    bfsLoop g maxDepth (g.idUniverse.length + 1) [(questionId, 0)]
      [questionId] []

/-- A call against the graph API (insertion or removal). -/
inductive GraphOp
  | add (q : Question)
  | remove (id : String)

def applyGraphOp (rand : RandOracle) :
    QuestionGraph × Nat → GraphOp → QuestionGraph × Nat
  | (g, pos), .add q =>
    let r := QuestionGraph.addQuestion rand pos g q
    (r.2.1, r.2.2)
  | (g, pos), .remove id => ((g.removeQuestion id).2, pos)

/-- The graph reached from the empty graph by a sequence of API calls. -/
def runGraphOps (rand : RandOracle) (ops : List GraphOp) : QuestionGraph :=
  (ops.foldl (applyGraphOp rand) (QuestionGraph.empty, 0)).1

/-! ### Association-list lemmas for the graph -/

theorem lookup_cons_eq {α : Type*} (k pk : String) (pv : α)
    (rest : List (String × α)) (h : k = pk) :
    List.lookup k ((pk, pv) :: rest) = some pv := by
  simp only [List.lookup]
  rw [show (k == pk) = true from beq_iff_eq.mpr h]

theorem lookup_cons_ne {α : Type*} (k pk : String) (pv : α)
    (rest : List (String × α)) (h : ¬ k = pk) :
    List.lookup k ((pk, pv) :: rest) = List.lookup k rest := by
  simp only [List.lookup]
  rw [show (k == pk) = false from beq_eq_false_iff_ne.mpr h]

theorem lookup_setAssoc {α : Type*} (k' k : String) (v : α) :
    ∀ (l : List (String × α)),
      List.lookup k' (setAssoc l k v) =
        if k' = k then some v else List.lookup k' l := by
  intro l
  induction l with
  | nil =>
    simp only [setAssoc]
    by_cases h : k' = k
    · rw [if_pos h]
      exact lookup_cons_eq k' k v [] h
    · rw [if_neg h, lookup_cons_ne k' k v [] h]
  | cons p rest ih =>
    obtain ⟨pk, pv⟩ := p
    simp only [setAssoc]
    by_cases hpk : pk = k
    · rw [if_pos hpk]
      by_cases hk' : k' = k
      · rw [if_pos hk', lookup_cons_eq k' k v rest hk']
      · rw [if_neg hk', lookup_cons_ne k' k v rest hk',
          lookup_cons_ne k' pk pv rest (fun hc => hk' (hc.trans hpk))]
    · rw [if_neg hpk]
      by_cases hk'pk : k' = pk
      · have hk'k : ¬ k' = k := fun hc => hpk (hk'pk ▸ hc)
        rw [if_neg hk'k, lookup_cons_eq k' pk pv (setAssoc rest k v) hk'pk,
          lookup_cons_eq k' pk pv rest hk'pk]
      · rw [lookup_cons_ne k' pk pv (setAssoc rest k v) hk'pk, ih,
          lookup_cons_ne k' pk pv rest hk'pk]

theorem nbr_setAssoc (e : List (String × List String)) (k : String)
    (v : List String) (a : String) :
    nbr (setAssoc e k v) a = if a = k then v else nbr e a := by
  simp only [nbr, lookup_setAssoc]
  split_ifs <;> rfl

theorem lookup_isSome_of_mem_fst {α : Type*} (k : String) :
    ∀ (l : List (String × α)), k ∈ l.map Prod.fst →
      (List.lookup k l).isSome := by
  intro l
  induction l with
  | nil => simp
  | cons p rest ih =>
    intro h
    obtain ⟨pk, pv⟩ := p
    by_cases hk : k = pk
    · rw [lookup_cons_eq k pk pv rest hk]
      rfl
    · rw [lookup_cons_ne k pk pv rest hk]
      apply ih
      rcases List.mem_cons.1 h with h | h
      · exact absurd h hk
      · exact h

/-- The effect of one symmetric edge insertion on every adjacency list. -/
theorem addEdgePair_nbr (e : List (String × List String)) (x y : String)
    (hxy : x ≠ y) (a : String) :
    nbr (addEdgePair e x y) a =
      if a = x ∧ y ∉ nbr e x then nbr e x ++ [y]
      else if a = y ∧ x ∉ nbr e y then nbr e y ++ [x]
      else nbr e a := by
  have hyx : ¬ y = x := fun hc => hxy hc.symm
  simp only [addEdgePair]
  by_cases h1 : y ∈ nbr e x
  · rw [if_pos h1]
    by_cases h2 : x ∈ nbr e y
    · rw [if_pos h2, if_neg (fun hc => hc.2 h1), if_neg (fun hc => hc.2 h2)]
    · rw [if_neg h2, nbr_setAssoc]
      by_cases ha : a = y
      · rw [if_pos ha, if_neg (fun hc => hyx (ha.symm.trans hc.1)),
          if_pos ⟨ha, h2⟩]
      · rw [if_neg ha, if_neg (fun hc => hc.2 h1), if_neg (fun hc => ha hc.1)]
  · rw [if_neg h1]
    have hy1 : nbr (setAssoc e x (nbr e x ++ [y])) y = nbr e y := by
      rw [nbr_setAssoc, if_neg hyx]
    rw [hy1]
    by_cases h2 : x ∈ nbr e y
    · rw [if_pos h2, nbr_setAssoc]
      by_cases hax : a = x
      · rw [if_pos hax, if_pos ⟨hax, h1⟩]
      · rw [if_neg hax, if_neg (fun hc => hax hc.1),
          if_neg (fun hc => hc.2 h2)]
    · rw [if_neg h2, nbr_setAssoc, nbr_setAssoc]
      by_cases ha : a = y
      · rw [if_pos ha, if_neg (fun hc => hyx (ha.symm.trans hc.1)),
          if_pos ⟨ha, h2⟩]
      · rw [if_neg ha]
        by_cases hax : a = x
        · rw [if_pos hax, if_pos ⟨hax, h1⟩]
        · rw [if_neg hax, if_neg (fun hc => hax hc.1),
            if_neg (fun hc => ha hc.1)]

/-- Membership form of `addEdgePair_nbr`. -/
theorem addEdgePair_mem (e : List (String × List String)) (x y : String)
    (hxy : x ≠ y) (u w : String) :
    u ∈ nbr (addEdgePair e x y) w ↔
      (u ∈ nbr e w ∨ (w = x ∧ u = y ∧ y ∉ nbr e x) ∨
        (w = y ∧ u = x ∧ x ∉ nbr e y)) := by
  have hyx : ¬ y = x := fun hc => hxy hc.symm
  rw [addEdgePair_nbr e x y hxy w]
  split_ifs with h1 h2
  · obtain ⟨rfl, hny⟩ := h1
    simp only [List.mem_append, List.mem_singleton]
    tauto
  · obtain ⟨rfl, hnx⟩ := h2
    simp only [List.mem_append, List.mem_singleton]
    tauto
  · push_neg at h1 h2
    tauto

/-- The graph invariant: the edge relation is symmetric, and ids that are not
nodes have no adjacency list. -/
def EdgeInv (nodes : List (String × Question))
    (e : List (String × List String)) : Prop :=
  (∀ a b, a ∈ nbr e b ↔ b ∈ nbr e a) ∧
    ∀ a, (List.lookup a nodes).isNone → nbr e a = []

theorem addEdgePair_edgeInv (nodes : List (String × Question))
    (e : List (String × List String)) (x y : String) (hxy : x ≠ y)
    (hx : (List.lookup x nodes).isSome) (hy : (List.lookup y nodes).isSome)
    (h : EdgeInv nodes e) : EdgeInv nodes (addEdgePair e x y) := by
  obtain ⟨hsym, hnn⟩ := h
  constructor
  · intro a b
    rw [addEdgePair_mem e x y hxy a b, addEdgePair_mem e x y hxy b a]
    have hs := hsym a b
    have hsx := hsym y x
    tauto
  · intro a ha
    have hax : ¬ a = x := fun hc => by
      rw [hc, Option.isNone_iff_eq_none] at ha
      rw [ha] at hx
      simp at hx
    have hay : ¬ a = y := fun hc => by
      rw [hc, Option.isNone_iff_eq_none] at ha
      rw [ha] at hy
      simp at hy
    rw [addEdgePair_nbr e x y hxy a, if_neg (fun hc => hax hc.1),
      if_neg (fun hc => hay hc.1)]
    exact hnn a ha

theorem foldl_addEdgePair_edgeInv (nodes : List (String × Question))
    (x : String) (hx : (List.lookup x nodes).isSome) :
    ∀ (ys : List String) (e : List (String × List String)),
      (∀ y ∈ ys, y ≠ x ∧ (List.lookup y nodes).isSome) →
      EdgeInv nodes e →
      EdgeInv nodes (ys.foldl (fun e y => addEdgePair e x y) e) := by
  intro ys
  induction ys with
  | nil => intro e _ h; exact h
  | cons y ys ih =>
    intro e hys h
    have hy := hys y (List.mem_cons_self y ys)
    exact ih _ (fun z hz => hys z (List.mem_cons_of_mem _ hz))
      (addEdgePair_edgeInv nodes e x y (fun hc => hy.1 hc.symm) hx hy.2 h)

theorem lookup_filter_ne {α : Type*} (a id : String) (h : ¬ a = id) :
    ∀ (l : List (String × α)),
      List.lookup a (l.filter fun p => p.1 ≠ id) = List.lookup a l := by
  intro l
  induction l with
  | nil => rfl
  | cons p rest ih =>
    obtain ⟨pk, pv⟩ := p
    rw [List.filter_cons]
    by_cases hpk : pk = id
    · rw [if_neg (by simp [hpk]), lookup_cons_ne a pk pv rest
        (fun hc => h (hc.trans hpk))]
      exact ih
    · rw [if_pos (by simp [hpk])]
      by_cases hak : a = pk
      · rw [lookup_cons_eq a pk pv _ hak, lookup_cons_eq a pk pv rest hak]
      · rw [lookup_cons_ne a pk pv _ hak, lookup_cons_ne a pk pv rest hak]
        exact ih

theorem lookup_filter_self {α : Type*} (id : String) :
    ∀ (l : List (String × α)),
      List.lookup id (l.filter fun p => p.1 ≠ id) = none := by
  intro l
  induction l with
  | nil => rfl
  | cons p rest ih =>
    obtain ⟨pk, pv⟩ := p
    rw [List.filter_cons]
    by_cases hpk : pk = id
    · rw [if_neg (by simp [hpk])]
      exact ih
    · rw [if_pos (by simp [hpk]),
        lookup_cons_ne id pk pv _ (fun hc => hpk hc.symm)]
      exact ih

theorem lookup_map_snd {α β : Type*} (f : α → β) (a : String) :
    ∀ (l : List (String × α)),
      List.lookup a (l.map fun p => (p.1, f p.2)) =
        (List.lookup a l).map f := by
  intro l
  induction l with
  | nil => rfl
  | cons p rest ih =>
    obtain ⟨pk, pv⟩ := p
    simp only [List.map_cons]
    by_cases hak : a = pk
    · rw [lookup_cons_eq a pk (f pv) _ hak, lookup_cons_eq a pk pv rest hak]
      rfl
    · rw [lookup_cons_ne a pk (f pv) _ hak, lookup_cons_ne a pk pv rest hak]
      exact ih

/-- The invariant of a whole graph value. -/
def GraphInv (g : QuestionGraph) : Prop :=
  EdgeInv g.nodes g.edges

theorem graphInv_empty : GraphInv QuestionGraph.empty := by
  constructor
  · intro a b
    simp [nbr, QuestionGraph.empty, List.lookup]
  · intro a _
    rfl

theorem addQuestion_graphInv (rand : RandOracle) (pos : Nat)
    (g : QuestionGraph) (q : Question) (h : GraphInv g) :
    GraphInv (QuestionGraph.addQuestion rand pos g q).2.1 := by
  rw [QuestionGraph.addQuestion]
  by_cases hpres : (List.lookup q.id g.nodes).isSome
  · rw [if_pos hpres]
    exact h
  · rw [if_neg hpres]
    have hfresh : (List.lookup q.id g.nodes).isNone := by
      cases hl : List.lookup q.id g.nodes
      · rfl
      · rw [hl] at hpres
        simp at hpres
    have hq0 : nbr g.edges q.id = [] := h.2 q.id hfresh
    have hnbr1 : ∀ a, nbr (setAssoc g.edges q.id []) a = nbr g.edges a := by
      intro a
      rw [nbr_setAssoc]
      by_cases ha : a = q.id
      · rw [if_pos ha, ha, hq0]
      · rw [if_neg ha]
    have hbase : EdgeInv (setAssoc g.nodes q.id q)
        (setAssoc g.edges q.id []) := by
      constructor
      · intro a b
        rw [hnbr1 a, hnbr1 b]
        exact h.1 a b
      · intro a ha
        rw [lookup_setAssoc] at ha
        by_cases haq : a = q.id
        · rw [if_pos haq] at ha
          simp at ha
        · rw [if_neg haq] at ha
          rw [hnbr1 a]
          exact h.2 a ha
    show GraphInv (findAndCreateRelationships rand pos
      ⟨setAssoc g.nodes q.id q, setAssoc g.edges q.id []⟩ q).1
    simp only [findAndCreateRelationships]
    refine foldl_addEdgePair_edgeInv (setAssoc g.nodes q.id q) q.id
      (by rw [lookup_setAssoc]; simp) _ _ ?_ hbase
    intro y hy
    have hy' := getRandomElements_subset rand pos _ _ y hy
    rcases List.mem_map.1 hy' with ⟨p, hp, rfl⟩
    have hp' := List.mem_filter.1 hp
    have hcond : p.1 ≠ q.id ∧ p.2.topic = q.topic := by
      simpa using hp'.2
    refine ⟨hcond.1, ?_⟩
    exact lookup_isSome_of_mem_fst p.1 _ (List.mem_map_of_mem Prod.fst hp'.1)

theorem removeQuestion_graphInv (g : QuestionGraph) (id : String)
    (h : GraphInv g) : GraphInv (g.removeQuestion id).2 := by
  rw [QuestionGraph.removeQuestion]
  by_cases habs : (List.lookup id g.nodes).isNone
  · rw [if_pos habs]
    exact h
  · rw [if_neg habs]
    have hnbr : ∀ a, nbr ((g.edges.filter fun p => p.1 ≠ id).map fun p =>
        (p.1, p.2.filter fun c => c ≠ id)) a =
        if a = id then [] else (nbr g.edges a).filter fun c => c ≠ id := by
      intro a
      by_cases ha : a = id
      · rw [if_pos ha, ha]
        show (List.lookup id ((g.edges.filter fun p => p.1 ≠ id).map fun p =>
          (p.1, p.2.filter fun c => c ≠ id))).getD [] = []
        rw [lookup_map_snd, lookup_filter_self]
        rfl
      · rw [if_neg ha]
        show (List.lookup a ((g.edges.filter fun p => p.1 ≠ id).map fun p =>
          (p.1, p.2.filter fun c => c ≠ id))).getD [] =
          (nbr g.edges a).filter fun c => c ≠ id
        rw [lookup_map_snd, lookup_filter_ne a id ha]
        cases hl : List.lookup a g.edges
        · simp [nbr, hl]
        · simp [nbr, hl]
    constructor
    · intro a b
      show a ∈ nbr _ b ↔ b ∈ nbr _ a
      rw [hnbr a, hnbr b]
      by_cases ha : a = id <;> by_cases hb : b = id <;>
        simp [ha, hb, List.mem_filter, h.1 a b]
    · intro a ha'
      show nbr _ a = []
      rw [hnbr a]
      by_cases ha : a = id
      · rw [if_pos ha]
      · rw [if_neg ha]
        have hnone : (List.lookup a g.nodes).isNone := by
          have := lookup_filter_ne a id ha g.nodes
          rw [← this]
          exact ha'
        rw [h.2 a hnone]
        rfl

theorem runGraphOps_graphInv (rand : RandOracle) (ops : List GraphOp) :
    GraphInv (runGraphOps rand ops) := by
  suffices h : ∀ (l : List GraphOp) (st : QuestionGraph × Nat),
      GraphInv st.1 → GraphInv (l.foldl (applyGraphOp rand) st).1 from
    h ops (QuestionGraph.empty, 0) graphInv_empty
  intro l
  induction l with
  | nil => intro st h; exact h
  | cons op l ih =>
    intro st h
    refine ih _ ?_
    obtain ⟨g, pos⟩ := st
    cases op with
    | add q => exact addQuestion_graphInv rand pos g q h
    | remove id => exact removeQuestion_graphInv g id h

/-- C8: after any sequence of `addQuestion`/`removeQuestion` calls on an
initially empty `QuestionGraphManager`, the edge relation is symmetric: for
ids present as nodes, each appears in the other's adjacency list iff the
converse holds (the proof establishes symmetry for all ids). -/
theorem graph_edges_symmetric (rand : RandOracle) (ops : List GraphOp)
    (a b : String) (ha : a ∈ (runGraphOps rand ops).nodeIds)
    (hb : b ∈ (runGraphOps rand ops).nodeIds) :
    a ∈ (runGraphOps rand ops).neighborsOf b ↔
      b ∈ (runGraphOps rand ops).neighborsOf a :=
  (runGraphOps_graphInv rand ops).1 a b

/-- Witness for C8: two same-topic questions inserted into the empty graph;
the single created edge is symmetric. -/
theorem graph_edges_symmetric_witness :
    "x1" ∈ (runGraphOps (fun _ => 0)
        [GraphOp.add (Question.mk "x1" "t" .Easy .Arrays none none none),
         GraphOp.add (Question.mk "x2" "t" .Easy .Arrays none none none)]).nodeIds ∧
      "x2" ∈ (runGraphOps (fun _ => 0)
        [GraphOp.add (Question.mk "x1" "t" .Easy .Arrays none none none),
         GraphOp.add (Question.mk "x2" "t" .Easy .Arrays none none none)]).nodeIds ∧
      ("x1" ∈ (runGraphOps (fun _ => 0)
        [GraphOp.add (Question.mk "x1" "t" .Easy .Arrays none none none),
         GraphOp.add (Question.mk "x2" "t" .Easy .Arrays none none none)]).neighborsOf "x2" ↔
       "x2" ∈ (runGraphOps (fun _ => 0)
        [GraphOp.add (Question.mk "x1" "t" .Easy .Arrays none none none),
         GraphOp.add (Question.mk "x2" "t" .Easy .Arrays none none none)]).neighborsOf "x1") :=
  ⟨by decide, by decide,
    graph_edges_symmetric (fun _ => 0)
      [GraphOp.add (Question.mk "x1" "t" .Easy .Arrays none none none),
       GraphOp.add (Question.mk "x2" "t" .Easy .Arrays none none none)]
      "x1" "x2" (by decide) (by decide)⟩

/-! ### BFS lemmas (claim C9) -/

/-- The ids the enqueue loop appends: the unvisited neighbours, in order of
first occurrence. -/
def freshOnes (visited : List String) : List String → List String
  | [] => []
  | n :: rest =>
    if n ∈ visited then freshOnes visited rest
    else n :: freshOnes (visited ++ [n]) rest

theorem enqueueNew_eq :
    ∀ (ns visited newIds : List String),
      enqueueNew visited newIds ns =
        (visited ++ freshOnes visited ns, newIds ++ freshOnes visited ns) := by
  intro ns
  induction ns with
  | nil => intro visited newIds; simp [enqueueNew, freshOnes]
  | cons n rest ih =>
    intro visited newIds
    simp only [enqueueNew, freshOnes]
    by_cases h : n ∈ visited
    · rw [if_pos h, if_pos h, ih]
    · rw [if_neg h, if_neg h, ih]
      simp

theorem freshOnes_mem_iff :
    ∀ (ns visited : List String) (x : String),
      x ∈ freshOnes visited ns ↔ (x ∈ ns ∧ x ∉ visited) := by
  intro ns
  induction ns with
  | nil => intro visited x; simp [freshOnes]
  | cons n rest ih =>
    intro visited x
    simp only [freshOnes]
    by_cases h : n ∈ visited
    · rw [if_pos h, ih]
      simp only [List.mem_cons]
      constructor
      · rintro ⟨hx, hv⟩
        exact ⟨Or.inr hx, hv⟩
      · rintro ⟨hx | hx, hv⟩
        · exact absurd (hx ▸ h) hv
        · exact ⟨hx, hv⟩
    · rw [if_neg h]
      simp only [List.mem_cons, ih, List.mem_append, List.mem_singleton]
      constructor
      · rintro (rfl | ⟨hx, hv⟩)
        · exact ⟨Or.inl rfl, h⟩
        · exact ⟨Or.inr hx, fun hc => hv (Or.inl hc)⟩
      · rintro ⟨hx | hx, hv⟩
        · exact Or.inl hx
        · by_cases hxn : x = n
          · exact Or.inl hxn
          · refine Or.inr ⟨hx, ?_⟩
            push_neg
            exact ⟨hv, hxn, List.not_mem_nil x⟩

theorem freshOnes_nodup :
    ∀ (ns visited : List String), (freshOnes visited ns).Nodup := by
  intro ns
  induction ns with
  | nil => intro visited; simp [freshOnes]
  | cons n rest ih =>
    intro visited
    simp only [freshOnes]
    by_cases h : n ∈ visited
    · rw [if_pos h]
      exact ih visited
    · rw [if_neg h]
      refine List.nodup_cons.2 ⟨?_, ih _⟩
      intro hc
      exact ((freshOnes_mem_iff rest (visited ++ [n]) n).1 hc).2 (by simp)

theorem freshOnes_length_le :
    ∀ (ns visited : List String),
      (freshOnes visited ns).length ≤ ns.length := by
  intro ns
  induction ns with
  | nil => intro visited; simp [freshOnes]
  | cons n rest ih =>
    intro visited
    simp only [freshOnes, List.length_cons]
    by_cases h : n ∈ visited
    · rw [if_pos h]
      exact Nat.le_succ_of_le (ih visited)
    · rw [if_neg h]
      simpa using Nat.succ_le_succ (ih (visited ++ [n]))

/-- Draining a queue whose entries are all at (or past) the depth bound:
each entry only contributes its node's question, and nothing is enqueued. -/
theorem bfsLoop_drain (g : QuestionGraph) (maxDepth : Nat) :
    ∀ (queue : List (String × Nat)) (fuel : Nat) (visited : List String)
      (result : List Question),
      (∀ p ∈ queue, 0 < p.2 ∧ maxDepth ≤ p.2) →
      queue.length ≤ fuel →
      bfsLoop g maxDepth fuel queue visited result =
        result ++ queue.filterMap fun p => List.lookup p.1 g.nodes := by
  intro queue
  induction queue with
  | nil =>
    intro fuel visited result _ _
    cases fuel <;> simp [bfsLoop]
  | cons p rest ih =>
    intro fuel visited result h hf
    obtain ⟨id, depth⟩ := p
    cases fuel with
    | zero => simp at hf
    | succ fuel =>
      have h1 := h (id, depth) (List.mem_cons_self _ _)
      simp only [bfsLoop]
      rw [if_pos h1.1, if_pos h1.2]
      cases hl : List.lookup id g.nodes with
      | none =>
        rw [ih fuel visited result
          (fun q hq => h q (List.mem_cons_of_mem _ hq)) (by simpa using hf)]
        simp [List.filterMap_cons, hl]
      | some q =>
        rw [ih fuel visited (result ++ [q])
          (fun r hr => h r (List.mem_cons_of_mem _ hr)) (by simpa using hf)]
        simp [List.filterMap_cons, hl]

theorem lookup_value_length_le {k : String} {v : List String} :
    ∀ (l : List (String × List String)), List.lookup k l = some v →
      v.length ≤ (l.flatMap fun p => p.2).length := by
  intro l
  induction l with
  | nil => intro h; simp [List.lookup] at h
  | cons p rest ih =>
    obtain ⟨pk, pv⟩ := p
    intro h
    simp only [List.flatMap_cons, List.length_append]
    by_cases hk : k = pk
    · rw [lookup_cons_eq k pk pv rest hk] at h
      obtain rfl : pv = v := by injection h
      omega
    · rw [lookup_cons_ne k pk pv rest hk] at h
      have := ih h
      omega

theorem neighborsOf_length_le (g : QuestionGraph) (id : String) :
    (g.neighborsOf id).length ≤ g.idUniverse.length := by
  simp only [QuestionGraph.neighborsOf, nbr, QuestionGraph.idUniverse]
  cases hl : List.lookup id g.edges with
  | none => simp
  | some v => simpa using lookup_value_length_le g.edges hl

/-- C9: for every graph state and every id present as a node,
`getRelatedQuestions(id, 1)` returns exactly the questions of the distinct
direct neighbours of `id` (each neighbour contributing at most once, the
start question excluded), and `getRelatedQuestions(id, 0)` is empty. -/
theorem getRelatedQuestions_depth01 (g : QuestionGraph) (id : String)
    (hnode : (List.lookup id g.nodes).isSome) :
    g.getRelatedQuestions id 0 = [] ∧
      ∃ keys : List String, keys.Nodup ∧ id ∉ keys ∧
        (∀ n, n ∈ keys ↔ (n ∈ g.neighborsOf id ∧ n ≠ id)) ∧
        g.getRelatedQuestions id 1 =
          keys.filterMap fun n => List.lookup n g.nodes := by
  have hnotnone : ¬ (List.lookup id g.nodes).isNone = true := by
    cases hl : List.lookup id g.nodes
    · rw [hl] at hnode
      simp at hnode
    · simp
  constructor
  · rw [QuestionGraph.getRelatedQuestions, if_neg hnotnone]
    simp [bfsLoop]
  · refine ⟨freshOnes [id] (g.neighborsOf id), freshOnes_nodup _ _, ?_, ?_, ?_⟩
    · intro hc
      exact ((freshOnes_mem_iff _ _ id).1 hc).2 (by simp)
    · intro n
      rw [freshOnes_mem_iff]
      simp
    · rw [QuestionGraph.getRelatedQuestions, if_neg hnotnone]
      have hall : ∀ p ∈ (freshOnes [id] (g.neighborsOf id)).map
          fun n => (n, 1), 0 < p.2 ∧ 1 ≤ p.2 := by
        intro p hp
        rcases List.mem_map.1 hp with ⟨n, _, rfl⟩
        exact ⟨Nat.one_pos, Nat.le_refl 1⟩
      have hfuel : ((freshOnes [id] (g.neighborsOf id)).map
          fun n => (n, 1)).length ≤ g.idUniverse.length := by
        rw [List.length_map]
        exact Nat.le_trans (freshOnes_length_le _ _)
          (neighborsOf_length_le g id)
      simp only [bfsLoop]
      norm_num
      rw [enqueueNew_eq]
      simp only [List.nil_append]
      rw [bfsLoop_drain g 1 _ g.idUniverse.length _ [] hall hfuel]
      rw [List.nil_append, List.filterMap_map]
      rfl

/-- A two-node graph with one symmetric edge, used as the BFS witness. -/
def twoNodeGraph : QuestionGraph :=
  { nodes := [("x1", Question.mk "x1" "t" .Easy .Arrays none none none),
              ("x2", Question.mk "x2" "t" .Easy .Arrays none none none)],
    edges := [("x1", ["x2"]), ("x2", ["x1"])] }

/-- Witness for C9 on `twoNodeGraph`. -/
theorem getRelatedQuestions_depth01_witness :
    (List.lookup "x1" twoNodeGraph.nodes).isSome ∧
      (twoNodeGraph.getRelatedQuestions "x1" 0 = [] ∧
        ∃ keys : List String, keys.Nodup ∧ "x1" ∉ keys ∧
          (∀ n, n ∈ keys ↔ (n ∈ twoNodeGraph.neighborsOf "x1" ∧ n ≠ "x1")) ∧
          twoNodeGraph.getRelatedQuestions "x1" 1 =
            keys.filterMap fun n => List.lookup n twoNodeGraph.nodes) :=
  ⟨by decide, getRelatedQuestions_depth01 twoNodeGraph "x1" (by decide)⟩

/-! ### Frame property of `generateExam` (claim C10) -/

/-- State-passing form of `getAllQuestions`: the method only reads
`this.store` (it builds a fresh result array with `push`), so it returns its
receiver unchanged. -/
def QuestionStore.getAllQuestionsSt (s : QuestionStore) :
    List Question × QuestionStore :=
  (s.getAllQuestions, s)

/-- State-passing form of `getQuestionsByTopic`: the method only reads
`this.store` (it spreads the three buckets into a fresh array), so it
returns its receiver unchanged. -/
def QuestionStore.getQuestionsByTopicSt (s : QuestionStore) (t : Topic) :
    List Question × QuestionStore :=
  (s.getQuestionsByTopic t, s)

/-- `getAvailableQuestions`, threading the store through the query calls it
makes (one `getAllQuestions`, or one `getQuestionsByTopic` per requested
topic). -/
def getAvailableQuestionsSt (s : QuestionStore) (topics : List Topic) :
    List Question × QuestionStore :=
  if topics.isEmpty then s.getAllQuestionsSt
  else
    topics.foldl
      (fun acc t =>
        let r := acc.2.getQuestionsByTopicSt t
        (acc.1 ++ r.1, r.2))
      ([], s)

/-- `generateExam` in state-passing form: the store is read once through
`getAvailableQuestions`; the selection passes work only on the returned
copies (fresh arrays), never on the store. -/
def generateExamSt (rand : RandOracle) (now : Nat) (s : QuestionStore)
    (config : ExamConfig) : ExamResult × QuestionStore :=
  let avail := getAvailableQuestionsSt s config.topics
  let distribution := calculateDistribution config.numQuestions
    config.difficulties avail.1
  let res := difficultyOrder.foldl
    (examStep rand distribution avail.1 config.topics) ([], 0)
  ({ questions := res.1, config := config, timestamp := now }, avail.2)

theorem getAvailableQuestionsSt_fold (s : QuestionStore) :
    ∀ (ts : List Topic) (acc : List Question × QuestionStore),
      acc.2 = s →
      (ts.foldl (fun acc t =>
        let r := acc.2.getQuestionsByTopicSt t
        (acc.1 ++ r.1, r.2)) acc) =
      (acc.1 ++ ts.flatMap fun t => s.getQuestionsByTopic t, s) := by
  intro ts
  induction ts with
  | nil =>
    intro acc h
    simp [← h]
  | cons t ts ih =>
    intro acc h
    simp only [List.foldl_cons, List.flatMap_cons]
    rw [ih (acc.1 ++ (acc.2.getQuestionsByTopicSt t).1,
      (acc.2.getQuestionsByTopicSt t).2) (by simp [QuestionStore.getQuestionsByTopicSt, h])]
    simp [QuestionStore.getQuestionsByTopicSt, h, List.append_assoc]

theorem getAvailableQuestionsSt_eq (s : QuestionStore) (topics : List Topic) :
    getAvailableQuestionsSt s topics =
      (getAvailableQuestions s topics, s) := by
  rw [getAvailableQuestionsSt, getAvailableQuestions]
  by_cases h : topics.isEmpty
  · rw [if_pos h, if_pos h]
    rfl
  · rw [if_neg h, if_neg h]
    rw [getAvailableQuestionsSt_fold s topics ([], s) rfl]
    simp

/-- C10: `generateExam` never mutates the store it reads from.  In
state-passing form the store coming out of the call has the same
topic/difficulty buckets and the same id set as the store going in, and the
computed result agrees with the direct reading of `generateExam`. -/
theorem generateExam_frame (rand : RandOracle) (now : Nat)
    (s : QuestionStore) (config : ExamConfig) :
    ((generateExamSt rand now s config).2).store = s.store ∧
      ((generateExamSt rand now s config).2).idSet = s.idSet ∧
      (generateExamSt rand now s config).1 =
        generateExam rand now s config := by
  have h := getAvailableQuestionsSt_eq s config.topics
  refine ⟨?_, ?_, ?_⟩ <;>
    simp [generateExamSt, generateExam, h]
